import Mathlib

/-!
Shallow embedding of src/annotacy/fuzzy.py (classes FuzzySearch and FuzzyRuler).

Modelling conventions:
* A spacy token is a record of its surface text, its trailing whitespace and
  the boolean classification predicates the code reads (is_space, is_punct,
  is_stop).  Tokenization itself (nlp.make_doc) is external: documents and
  queries enter the model as token lists.
* Python integers are embedded as Int where a value can go negative (window
  boundaries), as Nat otherwise; Python slice and single-index semantics
  (negative indices, clamping) are embedded explicitly.
* The pluggable fuzzywuzzy similarity functions are external collaborators
  (an injectable family per the specification); they are embedded as an
  explicit function parameter alg : String → String → Nat.
* Python exceptions (ValueError from max() on an empty sequence, KeyError on
  a missing table key, IndexError on token access) are embedded with
  Except String.
* The verbose printing branches are pure logging and are dropped.
-/

/-- A spacy token as read by fuzzy.py: surface text, trailing whitespace and
the three classification predicates used by the ignore rules. -/
structure Token where
  text : String
  ws : String
  is_space : Bool
  is_punct : Bool
  is_stop : Bool
deriving DecidableEq, Repr

/-- Surface text of a contiguous token run, exactly as spacy Span.text:
every token contributes its text plus its trailing whitespace, except the
last token which contributes only its text. -/
def spanText : List Token → String
  | [] => ""
  | [t] => t.text
  | t :: ts => t.text ++ t.ws ++ spanText ts

/-- Python slice bound normalization for a sequence of length n: a negative
bound counts from the end (clamped below at 0), a nonnegative bound is
clamped above at n. -/
def pyIdx (n : Nat) (i : Int) : Nat :=
  if i < 0 then (i + n).toNat else min i.toNat n

/-- Python slice doc a b on a token list; spacy Doc slicing normalizes slice
bounds the same way Python lists do. -/
def sliceList (xs : List Token) (a b : Int) : List Token :=
  (xs.take (pyIdx xs.length b)).drop (pyIdx xs.length a)

/-- Python single-index access doc i: a negative index wraps once by the
length, out-of-range access raises IndexError (modelled as none). -/
def getToken (xs : List Token) (i : Int) : Option Token :=
  let j := if i < 0 then i + xs.length else i
  if 0 ≤ j ∧ j < (xs.length : Int) then xs.get? j.toNat else none

/-- Python str.lower(), character-wise lower-casing (external string
method, modelled structurally). -/
def pyLower (s : String) : String := String.mk (s.data.map Char.toLower)

/-- FuzzySearch.match: apply the similarity function after lower-casing both
sides unless case_sensitive is set. -/
def matchScore (alg : String → String → Nat) (case_sensitive : Bool)
    (a b : String) : Nat :=
  if case_sensitive then alg a b else alg (pyLower a) (pyLower b)

/-- FuzzySearch._calc_flex: flex is reset to 1 when flex >= len(query) / 2;
the Python comparison uses true division, and over the integers
flex >= len(query) / 2 holds exactly when len(query) <= 2 * flex. -/
def calcFlex (flex : Nat) (query : List Token) : Nat :=
  if query.length ≤ 2 * flex then 1 else flex

/-- The while loop of FuzzySearch._scan_doc.  The fuel argument only bounds
the iteration count: the loop advances m by step every round, so for
step ≥ 1 the fuel supplied by scanDoc is never exhausted. -/
def scanAux (doc query : List Token) (alg : String → String → Nat)
    (min_ratio : Nat) (case_sensitive : Bool) (step : Nat) :
    Nat → Nat → Nat → List (Nat × Nat)
  | 0, _, _ => []
  | fuel + 1, m, i =>
    if (m : Int) + query.length - step ≤ (doc.length : Int) - 1 then
      let s := matchScore alg case_sensitive (spanText query)
        (spanText (sliceList doc (m : Int) ((m : Int) + query.length)))
      (if min_ratio ≤ s then [(i, s)] else []) ++
        scanAux doc query alg min_ratio case_sensitive step fuel (m + step) (i + 1)
    else []

/-- FuzzySearch._scan_doc: the ordered score table, an association list from
scan index i to score, in insertion (= scan) order. -/
def scanDoc (doc query : List Token) (alg : String → String → Nat)
    (min_ratio : Nat) (case_sensitive : Bool) (step : Nat) : List (Nat × Nat) :=
  scanAux doc query alg min_ratio case_sensitive step (doc.length + step + 1) 0 0

/-- OrderedDict lookup match_values[k] (none models KeyError). -/
def lookupTable (tbl : List (Nat × Nat)) (k : Nat) : Option Nat :=
  (tbl.find? (fun p => p.1 == k)).map (fun p => p.2)

/-- FuzzySearch._index_max: max(match_values.items(), key=itemgetter(1))[0].
Python max keeps the first maximal item and raises ValueError on an empty
sequence (modelled as none). -/
def indexMax : List (Nat × Nat) → Option Nat
  | [] => none
  | p :: ps => some ((ps.foldl (fun best q => if best.2 < q.2 then q else best) p).1)

/-- Stable insertion of x into a list already sorted by descending key. -/
def insertDescBy {α : Type} (key : α → Nat) (x : α) : List α → List α
  | [] => [x]
  | y :: ys => if key y ≤ key x then x :: y :: ys else y :: insertDescBy key x ys

/-- Stable sort by descending key.  Python sorted(…, reverse=True) and
heapq.nlargest are documented to produce exactly this stable descending
order. -/
def sortDescBy {α : Type} (key : α → Nat) : List α → List α
  | [] => []
  | x :: xs => insertDescBy key x (sortDescBy key xs)

/-- FuzzySearch._indice_maxes: nlargest(max_results, match_values,
key=match_values.get) over the insertion-ordered table. -/
def indiceMaxes (tbl : List (Nat × Nat)) (max_results : Nat) : List Nat :=
  ((sortDescBy (fun p => p.2) tbl).map (fun p => p.1)).take max_results

/-- The ignore-rule configuration of a FuzzySearch instance (the ignores,
left_ignores and right_ignores constructor arguments). -/
structure FuzzyConfig where
  ignores : List String
  left_ignores : Option (List String)
  right_ignores : Option (List String)
deriving DecidableEq, Repr

/-- Python truthiness of a list value. -/
def truthy (l : List String) : Bool := !l.isEmpty

/-- Python truthiness of an optional list (None or a list). -/
def otruthy : Option (List String) → Bool
  | none => false
  | some l => !l.isEmpty

/-- The three keys present in FuzzySearch.ignore_rules. -/
def knownKey (k : String) : Bool := k == "space" || k == "punct" || k == "stop"

/-- Apply one ignore rule by key (the lambdas stored in ignore_rules). -/
def applyIgnoreKey (k : String) (t : Token) : Bool :=
  if k == "space" then t.is_space
  else if k == "punct" then t.is_punct
  else if k == "stop" then t.is_stop
  else false

/-- Building left_ignore_funcs / right_ignore_funcs: every known global key
in order (unknown keys are silently skipped by the KeyError handler), then
every known edge key that is not already present.  Distinct keys map to
distinct lambda objects in ignore_rules, so Python's identity test
"func not in funcs" is key membership. -/
def buildKeys (globalKeys : List String) (edge : Option (List String)) :
    List String :=
  (edge.getD []).foldl
    (fun acc k => if knownKey k && !(acc.contains k) then acc ++ [k] else acc)
    (globalKeys.filter (fun k => knownKey k))

/-- Some ignore function fires on token t: any([func(t) for func in keys]). -/
def anyKey (keys : List String) (t : Token) : Bool :=
  keys.any (fun k => applyIgnoreKey k t)

/-- The while loop of FuzzySearch._enforce_left, entered only with a
nonempty function list: doc[bp_l] is evaluated every round and raises
IndexError when out of range. -/
def enforceLeftAux (keys : List String) (doc : List Token) (bp_r : Int) :
    Nat → Int → Except String Int
  | 0, _ => Except.error "fuel"
  | fuel + 1, bp_l =>
    match getToken doc bp_l with
    | none => Except.error "IndexError"
    | some t =>
      if anyKey keys t then
        if bp_l = bp_r - 1 then Except.ok bp_l
        else enforceLeftAux keys doc bp_r fuel (bp_l + 1)
      else Except.ok bp_l

/-- FuzzySearch._enforce_left. -/
def enforceLeft (cfg : FuzzyConfig) (doc : List Token) (bp_l bp_r : Int) :
    Except String Int :=
  if truthy cfg.ignores || otruthy cfg.left_ignores then
    let keys := buildKeys cfg.ignores cfg.left_ignores
    if keys.isEmpty then Except.ok bp_l
    else enforceLeftAux keys doc bp_r (2 * doc.length + 2) bp_l
  else Except.ok bp_l

/-- The while loop of FuzzySearch._enforce_right, entered only with a
nonempty function list. -/
def enforceRightAux (keys : List String) (doc : List Token) (bp_l : Int) :
    Nat → Int → Except String Int
  | 0, _ => Except.error "fuel"
  | fuel + 1, bp_r =>
    match getToken doc bp_r with
    | none => Except.error "IndexError"
    | some t =>
      if anyKey keys t then
        if bp_r = bp_l then Except.ok bp_r
        else enforceRightAux keys doc bp_l fuel (bp_r - 1)
      else Except.ok bp_r

/-- FuzzySearch._enforce_right: decrement bp_r once, trim while an ignore
rule fires, then restore exclusivity with a final increment.  When the
function list is empty the decrement and increment cancel out. -/
def enforceRight (cfg : FuzzyConfig) (doc : List Token) (bp_l bp_r : Int) :
    Except String Int :=
  if truthy cfg.ignores || otruthy cfg.right_ignores then
    let keys := buildKeys cfg.ignores cfg.right_ignores
    if keys.isEmpty then Except.ok bp_r
    else
      match enforceRightAux keys doc bp_l (2 * doc.length + 2) (bp_r - 1) with
      | Except.error e => Except.error e
      | Except.ok r => Except.ok (r + 1)
  else Except.ok bp_r

/-- FuzzySearch._enforce_rules: left trim, then right trim only when the
right boundary is still strictly greater than the trimmed left boundary. -/
def enforceRules (cfg : FuzzyConfig) (doc : List Token) (bp_l bp_r : Int) :
    Except String (Int × Int) :=
  match enforceLeft cfg doc bp_l bp_r with
  | Except.error e => Except.error e
  | Except.ok l =>
    if l < bp_r then
      match enforceRight cfg doc l bp_r with
      | Except.error e => Except.error e
      | Except.ok r => Except.ok (l, r)
    else Except.ok (l, bp_r)

/-- Loop state of FuzzySearch._adjust_left_right_positions: the running best
left/right scores bmv_l, bmv_r and boundaries bp_l, bp_r. -/
structure AdjustState where
  bmv_l : Nat
  bp_l : Int
  bmv_r : Nat
  bp_r : Int
deriving DecidableEq, Repr

/-- One radius f of the perturbation loop: score the four candidate windows
(p_l - f, p_r), (p_l + f, p_r), (p_l, p_r - f), (p_l, p_r + f); the two left
candidates are compared against the running best left score only and the two
right candidates against the running best right score only, each updating on
strict improvement.  p_l and p_r themselves never change. -/
def adjustStep (doc : List Token) (qt : String) (alg : String → String → Nat)
    (cs : Bool) (p_l p_r : Int) (st : AdjustState) (f : Nat) : AdjustState :=
  let ll := matchScore alg cs qt (spanText (sliceList doc (p_l - (f : Int)) p_r))
  let st1 := if st.bmv_l < ll then { st with bmv_l := ll, bp_l := p_l - (f : Int) } else st
  let lr := matchScore alg cs qt (spanText (sliceList doc (p_l + (f : Int)) p_r))
  let st2 := if st1.bmv_l < lr then { st1 with bmv_l := lr, bp_l := p_l + (f : Int) } else st1
  let rl := matchScore alg cs qt (spanText (sliceList doc p_l (p_r - (f : Int))))
  let st3 := if st2.bmv_r < rl then { st2 with bmv_r := rl, bp_r := p_r - (f : Int) } else st2
  let rr := matchScore alg cs qt (spanText (sliceList doc p_l (p_r + (f : Int))))
  if st3.bmv_r < rr then { st3 with bmv_r := rr, bp_r := p_r + (f : Int) } else st3

/-- The whole perturbation loop: fold adjustStep over f = 0, …, flex-1,
starting from the table baseline score bmv for both sides. -/
def adjustFold (doc : List Token) (qt : String) (alg : String → String → Nat)
    (cs : Bool) (p_l p_r : Int) (bmv flex : Nat) : AdjustState :=
  (List.range flex).foldl (adjustStep doc qt alg cs p_l p_r) ⟨bmv, p_l, bmv, p_r⟩

/-- FuzzySearch._adjust_left_right_positions.  p_l = pos and
p_r = pos + len(query); the baseline score for both sides is
match_values[p_l // step] (KeyError modelled as an error); after the loop
the rules are enforced and the trimmed window is re-scored. -/
def adjustLeftRightPositions (cfg : FuzzyConfig) (doc query : List Token)
    (tbl : List (Nat × Nat)) (alg : String → String → Nat) (cs : Bool)
    (pos step flex : Nat) : Except String (Int × Int × Nat) :=
  match lookupTable tbl (pos / step) with
  | none => Except.error "KeyError"
  | some bmv =>
    let p_l : Int := pos
    let p_r : Int := (pos : Int) + query.length
    let st := adjustFold doc (spanText query) alg cs p_l p_r bmv flex
    match enforceRules cfg doc st.bp_l st.bp_r with
    | Except.error e => Except.error e
    | Except.ok br =>
      Except.ok (br.1, br.2,
        matchScore alg cs (spanText query) (spanText (sliceList doc br.1 br.2)))

/-- A returned match tuple (doc[start:end], start, end, ratio). -/
structure FoundMatch where
  span : List Token
  start : Int
  endPos : Int
  score : Nat
deriving DecidableEq, Repr

/-- Build the returned match tuple from adjusted boundaries and score. -/
def mkMatch (doc : List Token) (m : Int × Int × Nat) : FoundMatch :=
  ⟨sliceList doc m.1 m.2.1, m.1, m.2.1, m.2.2⟩

/-- Left-to-right effectful map over a list: the list comprehension over
positions evaluates left to right and lets the first exception escape. -/
def mapMExcept {α β : Type} (f : α → Except String β) :
    List α → Except String (List β)
  | [] => Except.ok []
  | a :: rest =>
    match f a with
    | Except.error e => Except.error e
    | Except.ok b =>
      match mapMExcept f rest with
      | Except.error e => Except.error e
      | Except.ok bs => Except.ok (b :: bs)

/-- set(range(start, end)) of token indices, as an explicit list. -/
def pyRange (a b : Int) : List Int :=
  (List.range (b - a).toNat).map (fun (k : Nat) => a + (k : Int))

/-- FuzzySearch._filter_overlapping_matches: iterate in order, keep a match
only when its token range is disjoint from every already kept match. -/
def filterOverlappingAux : List FoundMatch → List FoundMatch → List FoundMatch
  | acc, [] => acc
  | acc, m :: rest =>
    if (pyRange m.start m.endPos).any
        (fun i => acc.any (fun n => (pyRange n.start n.endPos).contains i)) then
      filterOverlappingAux acc rest
    else filterOverlappingAux (acc ++ [m]) rest

/-- FuzzySearch._filter_overlapping_matches. -/
def filterOverlappingMatches (ms : List FoundMatch) : List FoundMatch :=
  filterOverlappingAux [] ms

/-- FuzzySearch.best_match.  nlp.make_doc(query) is external tokenization,
so the query enters as tokens.  With an empty score table _index_max raises
ValueError (max() of an empty sequence).  The fall-through when the refined
score is below min_ratio returns None, modelled as ok none. -/
def bestMatch (cfg : FuzzyConfig) (doc query : List Token)
    (alg : String → String → Nat) (min_ratio : Nat) (cs : Bool)
    (step flex : Nat) : Except String (Option FoundMatch) :=
  let flex1 := calcFlex flex query
  let tbl := scanDoc doc query alg min_ratio cs step
  match indexMax tbl with
  | none => Except.error "ValueError: max() arg is an empty sequence"
  | some idx =>
    match adjustLeftRightPositions cfg doc query tbl alg cs (idx * step) step flex1 with
    | Except.error e => Except.error e
    | Except.ok m =>
      Except.ok (if min_ratio ≤ m.2.2 then some (mkMatch doc m) else none)

/-- FuzzySearch.multi_match: adjust the top max_results table positions,
keep those whose refined score meets min_ratio, sort by descending score,
then drop overlapping matches. -/
def multiMatch (cfg : FuzzyConfig) (doc query : List Token) (max_results : Nat)
    (alg : String → String → Nat) (min_ratio : Nat) (cs : Bool)
    (step flex : Nat) : Except String (List FoundMatch) :=
  let flex1 := calcFlex flex query
  let tbl := scanDoc doc query alg min_ratio cs step
  let positions := (indiceMaxes tbl max_results).map (fun i => i * step)
  match mapMExcept
      (fun pos => adjustLeftRightPositions cfg doc query tbl alg cs pos step flex1)
      positions with
  | Except.error e => Except.error e
  | Except.ok adjusted =>
    Except.ok (filterOverlappingMatches (sortDescBy (fun m => m.score)
      (adjusted.filterMap
        (fun m => if min_ratio ≤ m.2.2 then some (mkMatch doc m) else none))))

/-- An entity span registered on a document. -/
structure Ent where
  start : Int
  endPos : Int
  label : String
deriving DecidableEq, Repr

/-- A document together with its entity collection (spacy Doc.ents). -/
structure RDoc where
  tokens : List Token
  ents : List Ent
deriving DecidableEq, Repr

/-- Two half-open token ranges intersect. -/
def entsOverlap (a b : Ent) : Bool :=
  a.start < b.endPos && b.start < a.endPos

/-- Modelled from the spec: the spacy Doc.ents += (span,) setter is external
to src/; per the specification's external-interface section, appension
"fails (signaling overlap) if the span intersects an existing entry"
(a ValueError), else the span is appended. -/
def entsAdd (ents : List Ent) (s : Ent) : Except String (List Ent) :=
  if ents.any (fun e => entsOverlap e s) then Except.error "ValueError"
  else Except.ok (ents ++ [s])

/-- Truthiness of token.ent_type_: the token belongs to some registered
entity span (spacy derives token-level entity tags from Doc.ents). -/
def tokEntType (ents : List Ent) (i : Int) : Bool :=
  ents.any (fun e => e.start ≤ i && i < e.endPos)

/-- Second half of one iteration of FuzzyRuler._adjust_ent_boundaries (the
end-shrink attempt); inl es means registration succeeded (break with new
entity list), inr s means continue with the possibly reassigned span. -/
def adjustEntSnd (ents : List Ent) (i : Nat) (s : Ent) : Sum (List Ent) Ent :=
  if tokEntType ents (s.endPos - (i : Int)) &&
      decide ((0 : Int) < s.endPos - (i : Int)) &&
      decide (s.start < s.endPos - (i : Int)) then
    let s2 : Ent := ⟨s.start, s.endPos - (i : Int), s.label⟩
    match entsAdd ents s2 with
    | Except.ok es => Sum.inl es
    | Except.error _ => Sum.inr s2
  else Sum.inr s

/-- One iteration of FuzzyRuler._adjust_ent_boundaries: the start-shrink
attempt, then the end-shrink attempt; span reassignments persist even when
registration fails. -/
def adjustEntFst (tokens : List Token) (ents : List Ent) (i : Nat) (s : Ent) :
    Sum (List Ent) Ent :=
  if tokEntType ents s.start &&
      decide (s.start < (tokens.length : Int) - (i : Int)) &&
      decide (s.start + (i : Int) < s.endPos) then
    let s1 : Ent := ⟨s.start + (i : Int), s.endPos, s.label⟩
    match entsAdd ents s1 with
    | Except.ok es => Sum.inl es
    | Except.error _ => adjustEntSnd ents i s1
  else adjustEntSnd ents i s

/-- The for loop of FuzzyRuler._adjust_ent_boundaries over
i = 1, …, overlap_adjust. -/
def adjustEntAux (tokens : List Token) (ents : List Ent) :
    Nat → Nat → Ent → List Ent
  | 0, _, _ => ents
  | rem + 1, i, s =>
    match adjustEntFst tokens ents i s with
    | Sum.inl es => es
    | Sum.inr s1 => adjustEntAux tokens ents rem (i + 1) s1

/-- FuzzyRuler._adjust_ent_boundaries. -/
def adjustEntBoundaries (overlap_adjust : Nat) (doc : RDoc) (s : Ent) : RDoc :=
  ⟨doc.tokens, adjustEntAux doc.tokens doc.ents overlap_adjust 1 s⟩

/-- FuzzyRuler._update_entities: append the span to doc.ents; on overlap
(ValueError) attempt boundary adjustment only when overlap_adjust is truthy,
otherwise return the document unchanged. -/
def updateEntities (overlap_adjust : Nat) (doc : RDoc) (s : Ent) : RDoc :=
  match entsAdd doc.ents s with
  | Except.ok es => ⟨doc.tokens, es⟩
  | Except.error _ =>
    if overlap_adjust ≠ 0 then adjustEntBoundaries overlap_adjust doc s else doc

/-- FuzzyRuler._iter_matches: register each labeled span in order. -/
def iterMatches (overlap_adjust : Nat) (doc : RDoc) (spans : List Ent) : RDoc :=
  spans.foldl (updateEntities overlap_adjust) doc

/-- FuzzyRuler.__call__: collect labeled multi_match results for every
(term, label) pair (nlp.make_doc on each term is external, passed in as
make_doc), then register every resulting span with _iter_matches. -/
def fuzzyRulerCall (cfg : FuzzyConfig) (overlap_adjust : Nat)
    (make_doc : String → List Token) (terms labels : List String)
    (max_results : Nat) (alg : String → String → Nat) (min_ratio : Nat)
    (cs : Bool) (step flex : Nat) (doc : RDoc) : Except String RDoc :=
  match mapMExcept
      (fun tl =>
        match multiMatch cfg doc.tokens (make_doc tl.1) max_results alg
            min_ratio cs step flex with
        | Except.error e => Except.error e
        | Except.ok l => Except.ok (l.map (fun m => (m, tl.2))))
      (terms.zip labels) with
  | Except.error e => Except.error e
  | Except.ok ms =>
    Except.ok (iterMatches overlap_adjust doc
      ((ms.flatten).map (fun ml => ⟨ml.1.start, ml.1.endPos, ml.2⟩)))


/-! ## Characterization of the scanner -/

/-- The scan-loop invariant: starting the loop at m = i * step with enough
fuel, the entries produced are exactly the indices j ≥ i whose window
satisfies the loop condition and whose score clears min_ratio. -/
theorem scanAux_mem (doc query : List Token) (alg : String → String → Nat)
    (mr : Nat) (cs : Bool) (step : Nat) (hstep : 1 ≤ step) :
    ∀ (fuel i : Nat), doc.length + step ≤ fuel + i * step →
      ∀ (j s : Nat),
      ((j, s) ∈ scanAux doc query alg mr cs step fuel (i * step) i ↔
        (i ≤ j ∧ ((j * step : Nat) : Int) + query.length - step ≤ (doc.length : Int) - 1 ∧
         s = matchScore alg cs (spanText query)
           (spanText (sliceList doc ((j * step : Nat) : Int)
             (((j * step : Nat) : Int) + query.length))) ∧
         mr ≤ s)) := by
  intro fuel
  induction fuel with
  | zero =>
    intro i hfuel j s
    simp only [scanAux, List.not_mem_nil, false_iff]
    rintro ⟨hij, hcond, -, -⟩
    have hmul : i * step ≤ j * step := Nat.mul_le_mul_right step hij
    push_cast at hcond
    omega
  | succ fuel ih =>
    intro i hfuel j s
    rw [scanAux]
    by_cases hcond : ((i * step : Nat) : Int) + query.length - step ≤ (doc.length : Int) - 1
    · rw [if_pos hcond]
      have hnext : i * step + step = (i + 1) * step := by ring
      have hfuel' : doc.length + step ≤ fuel + (i + 1) * step := by
        have he : (i + 1) * step = i * step + step := by ring
        omega
      have ihj := ih (i + 1) hfuel'
      rw [hnext]
      rcases Nat.lt_or_ge i j with hij | hij
      · -- j > i: only the recursive tail can contain (j, s)
        have hji : j ≠ i := by omega
        constructor
        · intro hmem
          rcases List.mem_append.mp hmem with hm | hm
          · by_cases hrec : mr ≤ matchScore alg cs (spanText query)
                (spanText (sliceList doc ((i * step : Nat) : Int)
                  (((i * step : Nat) : Int) + query.length)))
            · rw [if_pos hrec] at hm
              simp only [List.mem_singleton, Prod.mk.injEq] at hm
              exact absurd hm.1 hji
            · rw [if_neg hrec] at hm
              simp at hm
          · have hrec := (ihj j s).mp hm
            exact ⟨by omega, hrec.2.1, hrec.2.2.1, hrec.2.2.2⟩
        · intro ⟨h1, h2, h3, h4⟩
          apply List.mem_append.mpr
          right
          exact (ihj j s).mpr ⟨by omega, h2, h3, h4⟩
      · -- j ≤ i: membership (or the right side) forces j = i
        constructor
        · intro hmem
          rcases List.mem_append.mp hmem with hm | hm
          · by_cases hrec : mr ≤ matchScore alg cs (spanText query)
                (spanText (sliceList doc ((i * step : Nat) : Int)
                  (((i * step : Nat) : Int) + query.length)))
            · rw [if_pos hrec] at hm
              simp only [List.mem_singleton, Prod.mk.injEq] at hm
              refine ⟨le_of_eq hm.1.symm, ?_, ?_, ?_⟩
              · rw [hm.1]
                exact hcond
              · rw [hm.1]
                exact hm.2
              · rw [hm.2]
                exact hrec
            · rw [if_neg hrec] at hm
              simp at hm
          · have hrec := (ihj j s).mp hm
            omega
        · intro ⟨h1, h2, h3, h4⟩
          have hji : j = i := by omega
          subst hji
          apply List.mem_append.mpr
          left
          rw [← h3]
          rw [if_pos h4]
          simp
    · rw [if_neg hcond]
      simp only [List.not_mem_nil, false_iff]
      rintro ⟨hij, hcond', -, -⟩
      have hmul : i * step ≤ j * step := Nat.mul_le_mul_right step hij
      apply hcond
      push_cast at hcond' ⊢
      omega

/-- Membership in the score table produced by _scan_doc: an entry for scan
index j exists exactly when the window starting at token j * step satisfies
the loop bound and its score meets min_ratio, and the recorded score is the
window's score. -/
theorem scanDoc_mem (doc query : List Token) (alg : String → String → Nat)
    (mr : Nat) (cs : Bool) (step : Nat) (hstep : 1 ≤ step) (j s : Nat) :
    ((j, s) ∈ scanDoc doc query alg mr cs step ↔
      (((j * step : Nat) : Int) + query.length - step ≤ (doc.length : Int) - 1 ∧
       s = matchScore alg cs (spanText query)
         (spanText (sliceList doc ((j * step : Nat) : Int)
           (((j * step : Nat) : Int) + query.length))) ∧
       mr ≤ s)) := by
  have h := scanAux_mem doc query alg mr cs step hstep (doc.length + step + 1) 0
    (by omega) j s
  rw [Nat.zero_mul] at h
  rw [scanDoc, h]
  simp

/-! ## Helper lemmas: table selection, lookup, sorting -/

theorem matchScore_le (alg : String → String → Nat) (cs : Bool) (a b : String)
    (halg : ∀ x y, alg x y ≤ 100) : matchScore alg cs a b ≤ 100 := by
  unfold matchScore
  split
  · exact halg a b
  · exact halg (pyLower a) (pyLower b)

theorem foldlPick_mem (ps : List (Nat × Nat)) :
    ∀ p : Nat × Nat,
      (ps.foldl (fun best q => if best.2 < q.2 then q else best) p) ∈ p :: ps ∧
      (∀ q ∈ p :: ps,
        q.2 ≤ (ps.foldl (fun best q => if best.2 < q.2 then q else best) p).2) := by
  induction ps with
  | nil =>
    intro p
    simp
  | cons q qs ih =>
    intro p
    simp only [List.foldl_cons]
    obtain ⟨hmem, hmax⟩ := ih (if p.2 < q.2 then q else p)
    constructor
    · rcases List.mem_cons.mp hmem with h1 | h1
      · rw [h1]
        split
        · exact List.mem_cons_of_mem p (List.mem_cons_self q qs)
        · exact List.mem_cons_self p (q :: qs)
      · exact List.mem_cons_of_mem p (List.mem_cons_of_mem q h1)
    · intro r hr
      rcases List.mem_cons.mp hr with h1 | h1
      · rw [h1]
        have hp : p.2 ≤ (if p.2 < q.2 then q else p).2 := by
          split
          · omega
          · exact le_refl _
        exact le_trans hp (hmax _ (List.mem_cons_self _ _))
      rcases List.mem_cons.mp h1 with h2 | h2
      · rw [h2]
        have hq : q.2 ≤ (if p.2 < q.2 then q else p).2 := by
          split
          · exact le_refl _
          · omega
        exact le_trans hq (hmax _ (List.mem_cons_self _ _))
      · exact hmax r (List.mem_cons_of_mem _ h2)

theorem indexMax_mem (tbl : List (Nat × Nat)) (idx : Nat)
    (h : indexMax tbl = some idx) :
    ∃ v, (idx, v) ∈ tbl ∧ ∀ p ∈ tbl, p.2 ≤ v := by
  cases tbl with
  | nil => simp [indexMax] at h
  | cons p ps =>
    simp only [indexMax, Option.some.injEq] at h
    obtain ⟨hmem, hmax⟩ := foldlPick_mem ps p
    refine ⟨(ps.foldl (fun best q => if best.2 < q.2 then q else best) p).2, ?_, hmax⟩
    rw [← h]
    exact hmem

theorem indexMax_isSome (tbl : List (Nat × Nat)) (hne : tbl ≠ []) :
    ∃ idx, indexMax tbl = some idx := by
  match tbl with
  | [] => exact absurd rfl hne
  | p :: ps => exact ⟨_, rfl⟩

theorem lookupTable_mem (tbl : List (Nat × Nat)) (k v : Nat)
    (h : lookupTable tbl k = some v) : (k, v) ∈ tbl := by
  unfold lookupTable at h
  match hf : tbl.find? (fun p => p.1 == k) with
  | none => rw [hf] at h; simp at h
  | some p =>
    rw [hf] at h
    simp only [Option.map_some', Option.some.injEq] at h
    have hp := List.find?_some hf
    have hm := List.mem_of_find?_eq_some hf
    simp only [beq_iff_eq] at hp
    obtain ⟨p1, p2⟩ := p
    have hp1 : p1 = k := hp
    have hp2 : p2 = v := h
    rw [← hp1, ← hp2]
    exact hm

theorem lookupTable_isSome (tbl : List (Nat × Nat)) (k v : Nat)
    (h : (k, v) ∈ tbl) : ∃ v', lookupTable tbl k = some v' := by
  unfold lookupTable
  match hf : tbl.find? (fun p => p.1 == k) with
  | none =>
    have hc := List.find?_eq_none.mp hf (k, v) h
    simp only [beq_iff_eq] at hc
    exact absurd trivial hc
  | some p => exact ⟨p.2, by rw [hf]; rfl⟩

theorem mem_insertDescBy {α : Type} (key : α → Nat) (x y : α) (l : List α) :
    y ∈ insertDescBy key x l ↔ y = x ∨ y ∈ l := by
  induction l with
  | nil => simp [insertDescBy]
  | cons z zs ih =>
    rw [insertDescBy]
    split
    · simp [or_comm, or_assoc, or_left_comm]
    · simp only [List.mem_cons, ih]
      tauto

theorem mem_sortDescBy {α : Type} (key : α → Nat) (y : α) (l : List α) :
    y ∈ sortDescBy key l ↔ y ∈ l := by
  induction l with
  | nil => simp [sortDescBy]
  | cons z zs ih =>
    rw [sortDescBy, mem_insertDescBy]
    simp [ih]

theorem pairwise_insertDescBy {α : Type} (key : α → Nat) (x : α) (l : List α)
    (h : List.Pairwise (fun a b => key b ≤ key a) l) :
    List.Pairwise (fun a b => key b ≤ key a) (insertDescBy key x l) := by
  induction l with
  | nil => simp [insertDescBy]
  | cons z zs ih =>
    rw [insertDescBy]
    split
    · rename_i hz
      constructor
      · intro b hb
        rcases List.mem_cons.mp hb with h1 | h1
        · subst h1; exact hz
        · exact le_trans (List.rel_of_pairwise_cons h h1) hz
      · exact h
    · rename_i hz
      constructor
      · intro b hb
        rcases (mem_insertDescBy key x b zs).mp hb with h1 | h1
        · subst h1; omega
        · exact List.rel_of_pairwise_cons h h1
      · exact ih (List.Pairwise.sublist (List.sublist_cons_self z zs) h)

theorem pairwise_sortDescBy {α : Type} (key : α → Nat) (l : List α) :
    List.Pairwise (fun a b => key b ≤ key a) (sortDescBy key l) := by
  induction l with
  | nil => simp [sortDescBy]
  | cons z zs ih =>
    rw [sortDescBy]
    exact pairwise_insertDescBy key z (sortDescBy key zs) ih

theorem indiceMaxes_mem (tbl : List (Nat × Nat)) (k : Nat) (j : Nat)
    (h : j ∈ indiceMaxes tbl k) : ∃ v, (j, v) ∈ tbl := by
  unfold indiceMaxes at h
  have h1 := List.mem_of_mem_take h
  obtain ⟨p, hp, hpe⟩ := List.mem_map.mp h1
  have h2 := (mem_sortDescBy _ p tbl).mp hp
  exact ⟨p.2, by rw [← hpe]; exact h2⟩

theorem mapMExcept_ok_mem {α β : Type} (f : α → Except String β)
    (l : List α) (res : List β) (h : mapMExcept f l = Except.ok res) :
    ∀ b ∈ res, ∃ a ∈ l, f a = Except.ok b := by
  induction l generalizing res with
  | nil =>
    simp only [mapMExcept, Except.ok.injEq] at h
    subst h
    simp
  | cons a rest ih =>
    rw [mapMExcept] at h
    match hfa : f a with
    | Except.error e => rw [hfa] at h; simp at h
    | Except.ok b =>
      rw [hfa] at h
      match hrest : mapMExcept f rest with
      | Except.error e => rw [hrest] at h; simp at h
      | Except.ok bs =>
        rw [hrest] at h
        simp only [Except.ok.injEq] at h
        subst h
        intro b' hb'
        rcases List.mem_cons.mp hb' with h1 | h1
        · exact ⟨a, List.mem_cons_self a rest, by rw [hfa, h1]⟩
        · obtain ⟨a', ha', hfa'⟩ := ih bs hrest b' h1
          exact ⟨a', List.mem_cons_of_mem a ha', hfa'⟩

/-! ## Helper lemmas: boundary rule enforcement -/

theorem getToken_some (xs : List Token) (i : Int) (h0 : 0 ≤ i)
    (hl : i < (xs.length : Int)) : ∃ t, getToken xs i = some t := by
  unfold getToken
  simp only
  rw [if_neg (by omega : ¬ i < 0)]
  rw [if_pos ⟨h0, hl⟩]
  have hlt : i.toNat < xs.length := by omega
  exact ⟨xs.get ⟨i.toNat, hlt⟩, List.get?_eq_get hlt⟩

theorem enforceLeftAux_bounds (keys : List String) (doc : List Token) (bp_r : Int) :
    ∀ (fuel : Nat) (bp_l : Int), (bp_r - bp_l).toNat ≤ fuel →
      0 ≤ bp_l → bp_l < bp_r → bp_r ≤ (doc.length : Int) →
      ∃ l, enforceLeftAux keys doc bp_r fuel bp_l = Except.ok l ∧
        bp_l ≤ l ∧ l < bp_r := by
  intro fuel
  induction fuel with
  | zero =>
    intro bp_l hf h0 hlr hrd
    omega
  | succ fuel ih =>
    intro bp_l hf h0 hlr hrd
    obtain ⟨t, ht⟩ := getToken_some doc bp_l h0 (by omega)
    rw [enforceLeftAux, ht]
    dsimp only
    by_cases ha : anyKey keys t = true
    · rw [if_pos ha]
      by_cases he : bp_l = bp_r - 1
      · rw [if_pos he]
        exact ⟨bp_l, rfl, le_refl _, hlr⟩
      · rw [if_neg he]
        obtain ⟨l, hl', h1, h2⟩ := ih (bp_l + 1) (by omega) (by omega) (by omega) hrd
        exact ⟨l, hl', by omega, h2⟩
    · rw [if_neg ha]
      exact ⟨bp_l, rfl, le_refl _, hlr⟩

theorem enforceRightAux_bounds (keys : List String) (doc : List Token) (bp_l : Int) :
    ∀ (fuel : Nat) (bp_r : Int), (bp_r - bp_l).toNat < fuel →
      0 ≤ bp_l → bp_l ≤ bp_r → bp_r < (doc.length : Int) →
      ∃ r, enforceRightAux keys doc bp_l fuel bp_r = Except.ok r ∧
        bp_l ≤ r ∧ r ≤ bp_r := by
  intro fuel
  induction fuel with
  | zero =>
    intro bp_r hf h0 hlr hrd
    omega
  | succ fuel ih =>
    intro bp_r hf h0 hlr hrd
    obtain ⟨t, ht⟩ := getToken_some doc bp_r (by omega) hrd
    rw [enforceRightAux, ht]
    dsimp only
    by_cases ha : anyKey keys t = true
    · rw [if_pos ha]
      by_cases he : bp_r = bp_l
      · rw [if_pos he]
        exact ⟨bp_r, rfl, le_of_eq he.symm, le_refl _⟩
      · rw [if_neg he]
        obtain ⟨r, hr', h1, h2⟩ := ih (bp_r - 1) (by omega) h0 (by omega) (by omega)
        exact ⟨r, hr', h1, by omega⟩
    · rw [if_neg ha]
      exact ⟨bp_r, rfl, hlr, le_refl _⟩

theorem enforceLeft_bounds (cfg : FuzzyConfig) (doc : List Token)
    (bp_l bp_r : Int) (h0 : 0 ≤ bp_l) (hlr : bp_l < bp_r)
    (hrd : bp_r ≤ (doc.length : Int)) :
    ∃ l, enforceLeft cfg doc bp_l bp_r = Except.ok l ∧ bp_l ≤ l ∧ l < bp_r := by
  unfold enforceLeft
  split
  · dsimp only
    split
    · exact ⟨bp_l, rfl, le_refl _, hlr⟩
    · exact enforceLeftAux_bounds _ doc bp_r (2 * doc.length + 2) bp_l
        (by omega) h0 hlr hrd
  · exact ⟨bp_l, rfl, le_refl _, hlr⟩

theorem enforceRight_bounds (cfg : FuzzyConfig) (doc : List Token)
    (bp_l bp_r : Int) (h0 : 0 ≤ bp_l) (hlr : bp_l < bp_r)
    (hrd : bp_r ≤ (doc.length : Int)) :
    ∃ r, enforceRight cfg doc bp_l bp_r = Except.ok r ∧ bp_l < r ∧ r ≤ bp_r := by
  unfold enforceRight
  split
  · dsimp only
    split
    · exact ⟨bp_r, rfl, hlr, le_refl _⟩
    · obtain ⟨r, hr', h1, h2⟩ := enforceRightAux_bounds _ doc bp_l
        (2 * doc.length + 2) (bp_r - 1) (by omega) h0 (by omega) (by omega)
      rw [hr']
      exact ⟨r + 1, rfl, by omega, by omega⟩
  · exact ⟨bp_r, rfl, hlr, le_refl _⟩

theorem enforceRules_bounds (cfg : FuzzyConfig) (doc : List Token)
    (bp_l bp_r : Int) (h0 : 0 ≤ bp_l) (hlr : bp_l < bp_r)
    (hrd : bp_r ≤ (doc.length : Int)) :
    ∃ l r, enforceRules cfg doc bp_l bp_r = Except.ok (l, r) ∧
      bp_l ≤ l ∧ l < r ∧ r ≤ bp_r := by
  unfold enforceRules
  obtain ⟨l, hL, h1, h2⟩ := enforceLeft_bounds cfg doc bp_l bp_r h0 hlr hrd
  rw [hL]
  dsimp only
  rw [if_pos h2]
  obtain ⟨r, hR, h3, h4⟩ := enforceRight_bounds cfg doc l bp_r
    (le_trans h0 h1) h2 hrd
  rw [hR]
  exact ⟨l, r, rfl, h1, h3, h4⟩

theorem enforceRules_noIgnores (cfg : FuzzyConfig) (doc : List Token)
    (bp_l bp_r : Int) (h1 : truthy cfg.ignores = false)
    (h2 : otruthy cfg.left_ignores = false)
    (h3 : otruthy cfg.right_ignores = false) :
    enforceRules cfg doc bp_l bp_r = Except.ok (bp_l, bp_r) := by
  unfold enforceRules enforceLeft enforceRight
  rw [h1, h2, h3]
  simp

/-! ## Decomposition of the boundary perturbation loop -/

/-- Running state of one independent side search: best score and boundary. -/
structure SideState where
  bmv : Nat
  bp : Int
deriving DecidableEq, Repr

/-- The left half of one perturbation radius, exactly as the specification
describes it: score shrink-left and extend-left, compare each against the
running best left score only, update on strict improvement. -/
def refineLeftStep (doc : List Token) (qt : String) (alg : String → String → Nat)
    (cs : Bool) (p_l p_r : Int) (st : SideState) (f : Nat) : SideState :=
  let ll := matchScore alg cs qt (spanText (sliceList doc (p_l - (f : Int)) p_r))
  let st1 := if st.bmv < ll then ⟨ll, p_l - (f : Int)⟩ else st
  let lr := matchScore alg cs qt (spanText (sliceList doc (p_l + (f : Int)) p_r))
  if st1.bmv < lr then ⟨lr, p_l + (f : Int)⟩ else st1

/-- The right half of one perturbation radius: score shrink-right and
extend-right against the running best right score only. -/
def refineRightStep (doc : List Token) (qt : String) (alg : String → String → Nat)
    (cs : Bool) (p_l p_r : Int) (st : SideState) (f : Nat) : SideState :=
  let rl := matchScore alg cs qt (spanText (sliceList doc p_l (p_r - (f : Int))))
  let st1 := if st.bmv < rl then ⟨rl, p_r - (f : Int)⟩ else st
  let rr := matchScore alg cs qt (spanText (sliceList doc p_l (p_r + (f : Int))))
  if st1.bmv < rr then ⟨rr, p_r + (f : Int)⟩ else st1

/-- The independent left-boundary local search over radii 0, …, flex-1. -/
def refineLeft (doc : List Token) (qt : String) (alg : String → String → Nat)
    (cs : Bool) (p_l p_r : Int) (bmv flex : Nat) : SideState :=
  (List.range flex).foldl (refineLeftStep doc qt alg cs p_l p_r) ⟨bmv, p_l⟩

/-- The independent right-boundary local search over radii 0, …, flex-1. -/
def refineRight (doc : List Token) (qt : String) (alg : String → String → Nat)
    (cs : Bool) (p_l p_r : Int) (bmv flex : Nat) : SideState :=
  (List.range flex).foldl (refineRightStep doc qt alg cs p_l p_r) ⟨bmv, p_r⟩

theorem adjustStep_left (doc : List Token) (qt : String)
    (alg : String → String → Nat) (cs : Bool) (p_l p_r : Int)
    (st : AdjustState) (f : Nat) :
    SideState.mk (adjustStep doc qt alg cs p_l p_r st f).bmv_l
        (adjustStep doc qt alg cs p_l p_r st f).bp_l
      = refineLeftStep doc qt alg cs p_l p_r ⟨st.bmv_l, st.bp_l⟩ f := by
  unfold adjustStep refineLeftStep
  dsimp only
  split_ifs <;> rfl

theorem adjustStep_right (doc : List Token) (qt : String)
    (alg : String → String → Nat) (cs : Bool) (p_l p_r : Int)
    (st : AdjustState) (f : Nat) :
    SideState.mk (adjustStep doc qt alg cs p_l p_r st f).bmv_r
        (adjustStep doc qt alg cs p_l p_r st f).bp_r
      = refineRightStep doc qt alg cs p_l p_r ⟨st.bmv_r, st.bp_r⟩ f := by
  unfold adjustStep refineRightStep
  dsimp only
  split_ifs <;> rfl

theorem foldl_adjustStep_decompose (doc : List Token) (qt : String)
    (alg : String → String → Nat) (cs : Bool) (p_l p_r : Int) (l : List Nat) :
    ∀ st : AdjustState,
      l.foldl (adjustStep doc qt alg cs p_l p_r) st =
        ⟨(l.foldl (refineLeftStep doc qt alg cs p_l p_r) ⟨st.bmv_l, st.bp_l⟩).bmv,
         (l.foldl (refineLeftStep doc qt alg cs p_l p_r) ⟨st.bmv_l, st.bp_l⟩).bp,
         (l.foldl (refineRightStep doc qt alg cs p_l p_r) ⟨st.bmv_r, st.bp_r⟩).bmv,
         (l.foldl (refineRightStep doc qt alg cs p_l p_r) ⟨st.bmv_r, st.bp_r⟩).bp⟩ := by
  induction l with
  | nil => intro st; rfl
  | cons f fs ih =>
    intro st
    simp only [List.foldl_cons]
    rw [ih]
    rw [adjustStep_left doc qt alg cs p_l p_r st f,
      adjustStep_right doc qt alg cs p_l p_r st f]

theorem adjustFold_decompose (doc : List Token) (qt : String)
    (alg : String → String → Nat) (cs : Bool) (p_l p_r : Int) (bmv flex : Nat) :
    adjustFold doc qt alg cs p_l p_r bmv flex =
      ⟨(refineLeft doc qt alg cs p_l p_r bmv flex).bmv,
       (refineLeft doc qt alg cs p_l p_r bmv flex).bp,
       (refineRight doc qt alg cs p_l p_r bmv flex).bmv,
       (refineRight doc qt alg cs p_l p_r bmv flex).bp⟩ :=
  foldl_adjustStep_decompose doc qt alg cs p_l p_r (List.range flex) ⟨bmv, p_l, bmv, p_r⟩

theorem adjustStep_fix (doc : List Token) (qt : String)
    (alg : String → String → Nat) (cs : Bool) (p_l p_r : Int)
    (st : AdjustState) (f : Nat)
    (h1 : matchScore alg cs qt (spanText (sliceList doc (p_l - (f : Int)) p_r)) ≤ st.bmv_l)
    (h2 : matchScore alg cs qt (spanText (sliceList doc (p_l + (f : Int)) p_r)) ≤ st.bmv_l)
    (h3 : matchScore alg cs qt (spanText (sliceList doc p_l (p_r - (f : Int)))) ≤ st.bmv_r)
    (h4 : matchScore alg cs qt (spanText (sliceList doc p_l (p_r + (f : Int)))) ≤ st.bmv_r) :
    adjustStep doc qt alg cs p_l p_r st f = st := by
  unfold adjustStep
  dsimp only
  have h1' : ¬ st.bmv_l <
      matchScore alg cs qt (spanText (sliceList doc (p_l - (f : Int)) p_r)) := by omega
  rw [if_neg h1']
  have h2' : ¬ st.bmv_l <
      matchScore alg cs qt (spanText (sliceList doc (p_l + (f : Int)) p_r)) := by omega
  rw [if_neg h2']
  have h3' : ¬ st.bmv_r <
      matchScore alg cs qt (spanText (sliceList doc p_l (p_r - (f : Int)))) := by omega
  rw [if_neg h3']
  have h4' : ¬ st.bmv_r <
      matchScore alg cs qt (spanText (sliceList doc p_l (p_r + (f : Int)))) := by omega
  rw [if_neg h4']

theorem adjustFold_no_improvement (doc : List Token) (qt : String)
    (alg : String → String → Nat) (cs : Bool) (p_l p_r : Int) (bmv flex : Nat)
    (h : ∀ f ∈ List.range flex,
      matchScore alg cs qt (spanText (sliceList doc (p_l - (f : Int)) p_r)) ≤ bmv ∧
      matchScore alg cs qt (spanText (sliceList doc (p_l + (f : Int)) p_r)) ≤ bmv ∧
      matchScore alg cs qt (spanText (sliceList doc p_l (p_r - (f : Int)))) ≤ bmv ∧
      matchScore alg cs qt (spanText (sliceList doc p_l (p_r + (f : Int)))) ≤ bmv) :
    adjustFold doc qt alg cs p_l p_r bmv flex = ⟨bmv, p_l, bmv, p_r⟩ := by
  unfold adjustFold
  have h' : ∀ l : List Nat, (∀ f ∈ l,
      matchScore alg cs qt (spanText (sliceList doc (p_l - (f : Int)) p_r)) ≤ bmv ∧
      matchScore alg cs qt (spanText (sliceList doc (p_l + (f : Int)) p_r)) ≤ bmv ∧
      matchScore alg cs qt (spanText (sliceList doc p_l (p_r - (f : Int)))) ≤ bmv ∧
      matchScore alg cs qt (spanText (sliceList doc p_l (p_r + (f : Int)))) ≤ bmv) →
      l.foldl (adjustStep doc qt alg cs p_l p_r) ⟨bmv, p_l, bmv, p_r⟩ =
        ⟨bmv, p_l, bmv, p_r⟩ := by
    intro l
    induction l with
    | nil => intro _; rfl
    | cons f fs ih =>
      intro hc
      obtain ⟨c1, c2, c3, c4⟩ := hc f (List.mem_cons_self f fs)
      rw [List.foldl_cons,
        adjustStep_fix doc qt alg cs p_l p_r ⟨bmv, p_l, bmv, p_r⟩ f c1 c2 c3 c4]
      exact ih (fun g hg => hc g (List.mem_cons_of_mem f hg))
  exact h' (List.range flex) h

/-! ## Overlap filtering -/

/-- Two matches share a document token index. -/
def sharesIdx (a b : FoundMatch) : Prop :=
  ∃ i : Int, (a.start ≤ i ∧ i < a.endPos) ∧ (b.start ≤ i ∧ i < b.endPos)

theorem sharesIdx_symm {a b : FoundMatch} (h : sharesIdx a b) : sharesIdx b a := by
  obtain ⟨i, h1, h2⟩ := h
  exact ⟨i, h2, h1⟩

theorem mem_pyRange (a b i : Int) : i ∈ pyRange a b ↔ a ≤ i ∧ i < b := by
  unfold pyRange
  simp only [List.mem_map, List.mem_range]
  constructor
  · rintro ⟨k, hk, rfl⟩
    omega
  · intro h
    exact ⟨(i - a).toNat, by omega, by omega⟩

theorem overlapTest_iff (m : FoundMatch) (acc : List FoundMatch) :
    ((pyRange m.start m.endPos).any
      (fun i => acc.any (fun n => (pyRange n.start n.endPos).contains i)) = true)
    ↔ ∃ n ∈ acc, sharesIdx m n := by
  rw [List.any_eq_true]
  constructor
  · rintro ⟨i, hi, hin⟩
    rw [List.any_eq_true] at hin
    obtain ⟨n, hn, hc⟩ := hin
    have hmem : i ∈ pyRange n.start n.endPos := by simpa using hc
    exact ⟨n, hn, ⟨i, (mem_pyRange _ _ _).mp hi, (mem_pyRange _ _ _).mp hmem⟩⟩
  · rintro ⟨n, hn, i, h1, h2⟩
    refine ⟨i, (mem_pyRange _ _ _).mpr h1, ?_⟩
    rw [List.any_eq_true]
    exact ⟨n, hn, by simpa using (mem_pyRange n.start n.endPos i).mpr h2⟩

theorem filterOverlappingAux_append (ms : List FoundMatch) :
    ∀ acc, ∃ t, filterOverlappingAux acc ms = acc ++ t ∧ t.Sublist ms := by
  induction ms with
  | nil =>
    intro acc
    exact ⟨[], by simp [filterOverlappingAux], List.nil_sublist _⟩
  | cons m rest ih =>
    intro acc
    rw [filterOverlappingAux]
    split
    · obtain ⟨t, he, hs⟩ := ih acc
      exact ⟨t, he, hs.cons m⟩
    · obtain ⟨t, he, hs⟩ := ih (acc ++ [m])
      refine ⟨m :: t, ?_, hs.cons₂ m⟩
      rw [he, List.append_assoc, List.singleton_append]

theorem filterOverlappingAux_pairwise (ms : List FoundMatch) :
    ∀ acc, List.Pairwise (fun a b => ¬ sharesIdx a b) acc →
      List.Pairwise (fun a b => ¬ sharesIdx a b) (filterOverlappingAux acc ms) := by
  induction ms with
  | nil =>
    intro acc h
    exact h
  | cons m rest ih =>
    intro acc h
    rw [filterOverlappingAux]
    split
    · exact ih acc h
    · rename_i htest
      apply ih
      rw [List.pairwise_append]
      refine ⟨h, List.pairwise_singleton _ _, ?_⟩
      intro a ha b hb
      rw [List.mem_singleton] at hb
      intro hsh
      rw [hb] at hsh
      exact htest ((overlapTest_iff m acc).mpr ⟨a, ha, sharesIdx_symm hsh⟩)

theorem filterOverlappingMatches_spec (ms : List FoundMatch) :
    (filterOverlappingMatches ms).Sublist ms ∧
      List.Pairwise (fun a b => ¬ sharesIdx a b) (filterOverlappingMatches ms) := by
  constructor
  · obtain ⟨t, he, hs⟩ := filterOverlappingAux_append ms []
    rw [filterOverlappingMatches, he, List.nil_append]
    exact hs
  · exact filterOverlappingAux_pairwise ms [] (List.Pairwise.nil)

/-! ## Concrete fixtures used by witnesses and counterexamples -/

/-- A plain token with single-space trailing whitespace. -/
def tok (s : String) : Token := ⟨s, " ", false, false, false⟩

/-- A stop-word token. -/
def stopTok (s : String) : Token := ⟨s, " ", false, false, true⟩

/-- One concrete member of the injectable similarity family: the pure
exact-match scorer (range [0, 100], scoring 100 exactly on equal inputs). -/
def eqAlg : String → String → Nat := fun a b => if a = b then 100 else 0

/-- A constant member of the similarity family, for tie scenarios. -/
def constAlg : String → String → Nat := fun _ _ => 50

/-- The default FuzzySearch configuration:
ignores = ("space", "punct", "stop"), no edge-specific overrides. -/
def cfgDefault : FuzzyConfig := ⟨["space", "punct", "stop"], none, none⟩

/-- A configuration with no ignore rules at all. -/
def cfgNone : FuzzyConfig := ⟨[], none, none⟩

theorem eqAlg_le (a b : String) : eqAlg a b ≤ 100 := by
  unfold eqAlg
  split <;> omega

theorem eqAlg_eq_100 (a b : String) : eqAlg a b = 100 ↔ a = b := by
  unfold eqAlg
  split <;> simp_all

/-! ## Claim theorems -/

/-- C1: when no scanned window's score meets min_ratio (min_ratio = 101 with
a similarity function bounded by 100), the score table is empty and
best_match does NOT return an explicit absence: _index_max applies max() to
the empty table and a ValueError escapes.  This contradicts the claim (and
the spec), which promise an explicit absence; the raise is an evaluation of
the code at the claim's own scenario. -/
theorem spec_c1_min_ratio_101_raises (cfg : FuzzyConfig) (doc query : List Token)
    (alg : String → String → Nat) (cs : Bool) (step flex : Nat)
    (halg : ∀ a b, alg a b ≤ 100) (hstep : 1 ≤ step) :
    bestMatch cfg doc query alg 101 cs step flex
      = Except.error "ValueError: max() arg is an empty sequence" := by
  have htbl : scanDoc doc query alg 101 cs step = [] := by
    rw [List.eq_nil_iff_forall_not_mem]
    intro a ha
    obtain ⟨j, s⟩ := a
    have hm := (scanDoc_mem doc query alg 101 cs step hstep j s).mp ha
    have hb := matchScore_le alg cs (spanText query)
      (spanText (sliceList doc ((j * step : Nat) : Int)
        (((j * step : Nat) : Int) + query.length))) halg
    omega
  unfold bestMatch
  rw [htbl]
  rfl

/-- Witness for C1: the error is produced on a concrete document and query. -/
theorem spec_c1_min_ratio_101_raises_witness :
    bestMatch cfgDefault [tok "a"] [tok "b"] eqAlg 101 false 1 1
      = Except.error "ValueError: max() arg is an empty sequence" :=
  spec_c1_min_ratio_101_raises cfgDefault [tok "a"] [tok "b"] eqAlg false 1 1
    eqAlg_le (by decide)

/-- C5: for step ≥ 1 the score table of _scan_doc has an entry (i, s)
exactly when the window starting at token i * step satisfies the loop bound
i * step + len(query) - step ≤ len(doc) - 1 (so the scan starts at 0,
advances by step, and may skip the final valid window when step > 1), and
s is that window's similarity score and meets min_ratio; windows below
min_ratio are absent rather than recorded as zero. -/
theorem spec_c5_scan_table (doc query : List Token) (alg : String → String → Nat)
    (mr : Nat) (cs : Bool) (step : Nat) (hstep : 1 ≤ step) (i s : Nat) :
    ((i, s) ∈ scanDoc doc query alg mr cs step ↔
      (((i * step : Nat) : Int) + query.length - step ≤ (doc.length : Int) - 1 ∧
       s = matchScore alg cs (spanText query)
         (spanText (sliceList doc ((i * step : Nat) : Int)
           (((i * step : Nat) : Int) + query.length))) ∧
       mr ≤ s)) :=
  scanDoc_mem doc query alg mr cs step hstep i s

/-- Witness for C5 at a concrete scan. -/
theorem spec_c5_scan_table_witness :
    (0, 100) ∈ scanDoc [tok "a"] [tok "a"] eqAlg 70 false 1 :=
  (spec_c5_scan_table [tok "a"] [tok "a"] eqAlg 70 false 1 (by decide) 0 100).mpr
    (by refine ⟨by decide, ?_, by decide⟩; rfl)

/-- C6: the perturbation loop of _adjust_left_right_positions scores, for
each radius f in 0, …, flex-1, the four candidate windows (p_l - f, p_r),
(p_l + f, p_r), (p_l, p_r - f), (p_l, p_r + f); the loop state decomposes
into two independent local searches: the left candidates are compared only
against the running best left score and the right candidates only against
the running best right score, with strict-improvement updates; consequently
when no candidate ever exceeds the baseline score (so in particular on
ties), neither boundary moves. -/
theorem spec_c6_adjust_loop (doc : List Token) (qt : String)
    (alg : String → String → Nat) (cs : Bool) (p_l p_r : Int) (bmv flex : Nat) :
    (adjustFold doc qt alg cs p_l p_r bmv flex =
      ⟨(refineLeft doc qt alg cs p_l p_r bmv flex).bmv,
       (refineLeft doc qt alg cs p_l p_r bmv flex).bp,
       (refineRight doc qt alg cs p_l p_r bmv flex).bmv,
       (refineRight doc qt alg cs p_l p_r bmv flex).bp⟩) ∧
    ((∀ f ∈ List.range flex,
        matchScore alg cs qt (spanText (sliceList doc (p_l - (f : Int)) p_r)) ≤ bmv ∧
        matchScore alg cs qt (spanText (sliceList doc (p_l + (f : Int)) p_r)) ≤ bmv ∧
        matchScore alg cs qt (spanText (sliceList doc p_l (p_r - (f : Int)))) ≤ bmv ∧
        matchScore alg cs qt (spanText (sliceList doc p_l (p_r + (f : Int)))) ≤ bmv) →
      (adjustFold doc qt alg cs p_l p_r bmv flex).bp_l = p_l ∧
      (adjustFold doc qt alg cs p_l p_r bmv flex).bp_r = p_r) := by
  constructor
  · exact adjustFold_decompose doc qt alg cs p_l p_r bmv flex
  · intro h
    rw [adjustFold_no_improvement doc qt alg cs p_l p_r bmv flex h]
    exact ⟨rfl, rfl⟩

/-- Witness for C6 on a concrete all-tie loop with flex = 2. -/
theorem spec_c6_adjust_loop_witness :
    (adjustFold [tok "a", tok "b", tok "c"] "q" constAlg false 0 2 50 2 =
      ⟨(refineLeft [tok "a", tok "b", tok "c"] "q" constAlg false 0 2 50 2).bmv,
       (refineLeft [tok "a", tok "b", tok "c"] "q" constAlg false 0 2 50 2).bp,
       (refineRight [tok "a", tok "b", tok "c"] "q" constAlg false 0 2 50 2).bmv,
       (refineRight [tok "a", tok "b", tok "c"] "q" constAlg false 0 2 50 2).bp⟩) ∧
    ((adjustFold [tok "a", tok "b", tok "c"] "q" constAlg false 0 2 50 2).bp_l = 0 ∧
     (adjustFold [tok "a", tok "b", tok "c"] "q" constAlg false 0 2 50 2).bp_r = 2) :=
  ⟨(spec_c6_adjust_loop [tok "a", tok "b", tok "c"] "q" constAlg false 0 2 50 2).1,
   (spec_c6_adjust_loop [tok "a", tok "b", tok "c"] "q" constAlg false 0 2 50 2).2
     (by decide)⟩

/-- C7: _calc_flex clamps flex to 1 whenever flex ≥ len(query) / 2
(equivalently len(query) ≤ 2 * flex), and therefore a search called with
flex = len(query) behaves identically to the same search called with
flex = 1, both for best_match and for multi_match. -/
theorem spec_c7_flex_clamp :
    (∀ (flex : Nat) (query : List Token), query.length ≤ 2 * flex →
        calcFlex flex query = 1) ∧
    (∀ (cfg : FuzzyConfig) (doc query : List Token) (alg : String → String → Nat)
        (mr : Nat) (cs : Bool) (step : Nat),
      bestMatch cfg doc query alg mr cs step query.length
        = bestMatch cfg doc query alg mr cs step 1 ∧
      ∀ k, multiMatch cfg doc query k alg mr cs step query.length
        = multiMatch cfg doc query k alg mr cs step 1) := by
  constructor
  · intro flex query h
    unfold calcFlex
    rw [if_pos h]
  · intro cfg doc query alg mr cs step
    have hc : calcFlex query.length query = calcFlex 1 query := by
      unfold calcFlex
      rw [if_pos (by omega)]
      split <;> rfl
    constructor
    · unfold bestMatch
      rw [hc]
    · intro k
      unfold multiMatch
      rw [hc]

/-- Witness for C7 at concrete inputs. -/
theorem spec_c7_flex_clamp_witness :
    calcFlex 3 [tok "a"] = 1 ∧
    bestMatch cfgDefault [tok "a", tok "b"] [tok "b"] eqAlg 70 false 1
        [tok "b"].length
      = bestMatch cfgDefault [tok "a", tok "b"] [tok "b"] eqAlg 70 false 1 1 :=
  ⟨spec_c7_flex_clamp.1 3 [tok "a"] (by decide),
   (spec_c7_flex_clamp.2 cfgDefault [tok "a", tok "b"] [tok "b"] eqAlg 70 false 1).1⟩

/-- C9: with step = 1 and a document shorter than the query, the scan-loop
condition fails immediately, the score table is empty, and multi_match
returns the empty list without raising. -/
theorem spec_c9_short_doc (cfg : FuzzyConfig) (doc query : List Token)
    (alg : String → String → Nat) (mr : Nat) (cs : Bool) (k flex : Nat)
    (h : doc.length < query.length) :
    scanDoc doc query alg mr cs 1 = [] ∧
    multiMatch cfg doc query k alg mr cs 1 flex = Except.ok [] := by
  have htbl : scanDoc doc query alg mr cs 1 = [] := by
    rw [List.eq_nil_iff_forall_not_mem]
    intro a ha
    obtain ⟨j, s⟩ := a
    have hm := (scanDoc_mem doc query alg mr cs 1 (by omega) j s).mp ha
    have hc := hm.1
    push_cast at hc
    omega
  refine ⟨htbl, ?_⟩
  unfold multiMatch
  rw [htbl]
  simp [indiceMaxes, sortDescBy, mapMExcept, filterOverlappingMatches,
    filterOverlappingAux]

/-- Witness for C9 at a concrete short document. -/
theorem spec_c9_short_doc_witness :
    scanDoc [tok "a"] [tok "a", tok "b"] eqAlg 70 false 1 = [] ∧
    multiMatch cfgDefault [tok "a"] [tok "a", tok "b"] 3 eqAlg 70 false 1 1
      = Except.ok [] :=
  spec_c9_short_doc cfgDefault [tok "a"] [tok "a", tok "b"] eqAlg 70 false 3 1
    (by decide)

/-- C10: on valid indices (0 ≤ bp_l and bp_r ≤ len(doc)) with bp_l < bp_r,
_enforce_rules succeeds and returns a pair (bp_l', bp_r') with
bp_l ≤ bp_l' < bp_r' ≤ bp_r: the trimmed span is a nonempty sub-range of
the input span. -/
theorem spec_c10_enforce_rules_bounds (cfg : FuzzyConfig) (doc : List Token)
    (bp_l bp_r : Int) (h0 : 0 ≤ bp_l) (hlr : bp_l < bp_r)
    (hrd : bp_r ≤ (doc.length : Int)) :
    ∃ l r, enforceRules cfg doc bp_l bp_r = Except.ok (l, r) ∧
      bp_l ≤ l ∧ l < r ∧ r ≤ bp_r :=
  enforceRules_bounds cfg doc bp_l bp_r h0 hlr hrd

/-- Witness for C10 on a concrete stop-word-trimmed span. -/
theorem spec_c10_enforce_rules_bounds_witness :
    ∃ l r, enforceRules cfgDefault [stopTok "the", tok "cat"] 0 2
        = Except.ok (l, r) ∧ (0 : Int) ≤ l ∧ l < r ∧ r ≤ 2 :=
  spec_c10_enforce_rules_bounds cfgDefault [stopTok "the", tok "cat"] 0 2
    (by decide) (by decide) (by decide)

/-! ## Counterexample fixtures for C2 and C3 -/

/-- Five-token document for the C3 counterexample. -/
def cexDoc3 : List Token := [tok "a0", tok "a1", tok "a2", tok "a3", tok "a4"]

/-- Four-token query for the C3 counterexample. -/
def cexQuery3 : List Token := [tok "b0", tok "b1", tok "b2", tok "b3"]

/-- A similarity function preferring the final short window. -/
def cexAlg3 : String → String → Nat := fun _ w => if w = "a3 a4" then 90 else 50

/-- The match actually returned in the C3 counterexample. -/
def cexMatch3 : FoundMatch := ⟨[tok "a3", tok "a4"], 3, 7, 90⟩

/-- Counterexample to C3: with step = 3 on a 5-token document and a 4-token
query, best_match returns a Match whose end boundary is 7 > 5 = len(doc),
violating the claimed invariant end ≤ len(document). -/
theorem spec_c3_counterexample :
    bestMatch cfgNone cexDoc3 cexQuery3 cexAlg3 0 false 3 1
      = Except.ok (some cexMatch3) ∧
    (cexDoc3.length : Int) < cexMatch3.endPos := by
  constructor
  · rfl
  · decide

/-- Two-token document (and identical query) for the C2 counterexample;
its first token is a stop word. -/
def cexDocTC : List Token := [stopTok "the", tok "cat"]

/-- Counterexample to C2: the query occurs verbatim (it is the whole
document), the exact-match scorer is used with min_ratio = 60 ≤ 100 and
default settings (in particular the default ignore rules), yet best_match
does not return a span with the query's text and score 100: the default
stop-word trim cuts the window to "cat", the re-scored window scores 0
under the exact-match scorer, and best_match returns None. -/
theorem spec_c2_counterexample :
    ((cexDocTC.drop 0).take cexDocTC.length = cexDocTC) ∧ 60 ≤ 100 ∧
    bestMatch cfgDefault cexDocTC cexDocTC eqAlg 60 false 1 1
      = Except.ok none := by
  refine ⟨rfl, by decide, rfl⟩

/-- C4: every successful multi_match result list is overlap-free (no two
returned Matches share a token index), sorted by non-increasing score, and
every returned Match has score ≥ min_ratio. -/
theorem spec_c4_multi_match_invariants (cfg : FuzzyConfig)
    (doc query : List Token) (k : Nat) (alg : String → String → Nat)
    (mr : Nat) (cs : Bool) (step flex : Nat) (res : List FoundMatch)
    (h : multiMatch cfg doc query k alg mr cs step flex = Except.ok res) :
    List.Pairwise (fun a b => ¬ sharesIdx a b) res ∧
    List.Pairwise (fun a b => b.score ≤ a.score) res ∧
    ∀ m ∈ res, mr ≤ m.score := by
  unfold multiMatch at h
  dsimp only at h
  split at h
  · exact absurd h (by simp)
  · rename_i adjusted heq
    injection h with h'
    rw [← h']
    refine ⟨(filterOverlappingMatches_spec _).2, ?_, ?_⟩
    · exact List.Pairwise.sublist (filterOverlappingMatches_spec _).1
        (pairwise_sortDescBy (fun (m : FoundMatch) => m.score) _)
    · intro m hm
      have hm1 := (filterOverlappingMatches_spec _).1.subset hm
      have hm2 := (mem_sortDescBy (fun (m : FoundMatch) => m.score) m _).mp hm1
      obtain ⟨a, _, hfa⟩ := List.mem_filterMap.mp hm2
      by_cases hc : mr ≤ a.2.2
      · rw [if_pos hc] at hfa
        injection hfa with hfa'
        rw [← hfa']
        exact hc
      · rw [if_neg hc] at hfa
        exact absurd hfa (by simp)

/-- The concrete result list for the C4 witness. -/
def c4res : List FoundMatch := [⟨[tok "cat"], 1, 2, 100⟩, ⟨[tok "cat"], 3, 4, 100⟩]

/-- Witness for C4 on a concrete two-hit search. -/
theorem spec_c4_multi_match_invariants_witness :
    List.Pairwise (fun a b => ¬ sharesIdx a b) c4res ∧
    List.Pairwise (fun a b => b.score ≤ a.score) c4res ∧
    ∀ m ∈ c4res, 70 ≤ m.score :=
  spec_c4_multi_match_invariants cfgDefault
    [tok "x", tok "cat", tok "y", tok "cat"] [tok "cat"] 3 eqAlg 70 false 1 1
    c4res rfl

/-- With step = 1, effective flex = 1 and the table baseline equal to the
window's own score, _adjust_left_right_positions has a no-op perturbation
loop and its output boundaries stay inside [pos, pos + len(query)], hence
inside the document. -/
theorem adjust_bounds_step1 (cfg : FuzzyConfig) (doc query : List Token)
    (tbl : List (Nat × Nat)) (alg : String → String → Nat) (cs : Bool)
    (pos : Nat) (mm : Int × Int × Nat)
    (hq : 1 ≤ query.length) (hld : pos + query.length ≤ doc.length)
    (hbmv : lookupTable tbl pos = some (matchScore alg cs (spanText query)
      (spanText (sliceList doc (pos : Int) ((pos : Int) + (query.length : Int))))))
    (hok : adjustLeftRightPositions cfg doc query tbl alg cs pos 1 1
      = Except.ok mm) :
    0 ≤ mm.1 ∧ mm.1 < mm.2.1 ∧ mm.2.1 ≤ (doc.length : Int) := by
  unfold adjustLeftRightPositions at hok
  rw [Nat.div_one] at hok
  rw [hbmv] at hok
  dsimp only at hok
  have hni := adjustFold_no_improvement doc (spanText query) alg cs (pos : Int)
      ((pos : Int) + (query.length : Int))
      (matchScore alg cs (spanText query) (spanText (sliceList doc (pos : Int)
        ((pos : Int) + (query.length : Int))))) 1
      (by
        intro f hf
        simp only [List.mem_range] at hf
        have hf0 : f = 0 := by omega
        subst hf0
        simp only [Nat.cast_zero, sub_zero, add_zero]
        exact ⟨le_refl _, le_refl _, le_refl _, le_refl _⟩)
  rw [hni] at hok
  dsimp only at hok
  obtain ⟨l0, r0, hrules, hb1, hb2, hb3⟩ := enforceRules_bounds cfg doc (pos : Int)
    ((pos : Int) + (query.length : Int)) (by omega) (by omega) (by omega)
  rw [hrules] at hok
  dsimp only at hok
  injection hok with h'
  rw [← h']
  dsimp only
  refine ⟨by omega, by omega, by omega⟩

/-- C3 as amended: with step = 1, effective flex clamped to 1 and a
nonempty query, every Match returned by best_match or multi_match satisfies
0 ≤ start < end ≤ len(document).  (The original unconditional claim is
refuted by spec_c3_counterexample: with step = 3 the window offset
pos = index * step can place end = pos + len(query) beyond the document,
and with larger effective flex the left perturbation can drive start
negative.) -/
theorem spec_c3_amended (cfg : FuzzyConfig) (doc query : List Token)
    (alg : String → String → Nat) (mr : Nat) (cs : Bool) (flex k : Nat)
    (hq : 1 ≤ query.length) (hflex : calcFlex flex query = 1) :
    (∀ m, bestMatch cfg doc query alg mr cs 1 flex = Except.ok (some m) →
       0 ≤ m.start ∧ m.start < m.endPos ∧ m.endPos ≤ (doc.length : Int)) ∧
    (∀ res m, multiMatch cfg doc query k alg mr cs 1 flex = Except.ok res →
       m ∈ res →
       0 ≤ m.start ∧ m.start < m.endPos ∧ m.endPos ≤ (doc.length : Int)) := by
  constructor
  · intro m h
    unfold bestMatch at h
    dsimp only at h
    rw [hflex] at h
    split at h
    · exact absurd h (by simp)
    · rename_i idx hidx
      split at h
      · exact absurd h (by simp)
      · rename_i mm hmm
        injection h with h'
        by_cases hc : mr ≤ mm.2.2
        · rw [if_pos hc] at h'
          injection h' with h''
          obtain ⟨v, hv, -⟩ := indexMax_mem _ idx hidx
          have hchar := (scanDoc_mem doc query alg mr cs 1 (by omega) idx v).mp hv
          obtain ⟨v', hv'⟩ := lookupTable_isSome _ idx v hv
          have hchar' := (scanDoc_mem doc query alg mr cs 1 (by omega) idx v').mp
            (lookupTable_mem _ idx v' hv')
          simp only [Nat.mul_one] at hchar hchar' hmm
          rw [hchar'.2.1] at hv'
          have hcond := hchar.1
          push_cast at hcond
          have hb := adjust_bounds_step1 cfg doc query _ alg cs idx mm hq
            (by omega) hv' hmm
          rw [← h'']
          exact hb
        · rw [if_neg hc] at h'
          exact absurd h' (by simp)
  · intro res m h hm
    unfold multiMatch at h
    dsimp only at h
    rw [hflex] at h
    split at h
    · exact absurd h (by simp)
    · rename_i adjusted heq
      injection h with h'
      rw [← h'] at hm
      have hm1 := (filterOverlappingMatches_spec _).1.subset hm
      have hm2 := (mem_sortDescBy (fun (n : FoundMatch) => n.score) m _).mp hm1
      obtain ⟨a, ha, hfa⟩ := List.mem_filterMap.mp hm2
      by_cases hc : mr ≤ a.2.2
      · rw [if_pos hc] at hfa
        injection hfa with hfa'
        obtain ⟨pos, hpos, hadj⟩ := mapMExcept_ok_mem _ _ _ heq a ha
        obtain ⟨idx, hidx, hpe⟩ := List.mem_map.mp hpos
        obtain ⟨v, hv⟩ := indiceMaxes_mem _ k idx hidx
        have hchar := (scanDoc_mem doc query alg mr cs 1 (by omega) idx v).mp hv
        obtain ⟨v', hv'⟩ := lookupTable_isSome _ idx v hv
        have hchar' := (scanDoc_mem doc query alg mr cs 1 (by omega) idx v').mp
          (lookupTable_mem _ idx v' hv')
        rw [← hpe] at hadj
        simp only [Nat.mul_one] at hchar hchar' hadj
        rw [hchar'.2.1] at hv'
        have hcond := hchar.1
        push_cast at hcond
        have hb := adjust_bounds_step1 cfg doc query _ alg cs idx a hq
          (by omega) hv' hadj
        rw [← hfa']
        exact hb
      · rw [if_neg hc] at hfa
        exact absurd hfa (by simp)

/-- Witness for the amended C3 on a concrete search. -/
theorem spec_c3_amended_witness :
    0 ≤ (0 : Int) ∧ (0 : Int) < 1 ∧
      (1 : Int) ≤ (([tok "cat"] : List Token).length : Int) :=
  (spec_c3_amended cfgDefault [tok "cat"] [tok "cat"] eqAlg 70 false 1 3
      (by decide) (by decide)).1
    ⟨[tok "cat"], 0, 1, 100⟩ rfl

/-- C2 as amended: if the query's token sequence (nonempty) occurs verbatim
and contiguously in the document, then best_match with an exact-match
similarity function (range ≤ 100 and scoring 100 precisely on equal
strings), min_ratio ≤ 100, step = 1, default case folding, any flex, and no
ignore rules configured, returns a Match whose score is 100 and whose
surface text equals the query's text up to lower-casing.  (The original
claim, with the default ignore rules and exact text equality, is refuted by
spec_c2_counterexample: edge trimming can shrink the window.) -/
theorem spec_c2_amended (cfg : FuzzyConfig) (doc query : List Token)
    (alg : String → String → Nat) (mr : Nat) (flex : Nat) (j : Nat)
    (halg_le : ∀ a b, alg a b ≤ 100)
    (halg_eq : ∀ a b, alg a b = 100 ↔ a = b)
    (hq : 1 ≤ query.length) (hmr : mr ≤ 100)
    (hj : j + query.length ≤ doc.length)
    (hocc : (doc.drop j).take query.length = query)
    (hig1 : truthy cfg.ignores = false) (hig2 : otruthy cfg.left_ignores = false)
    (hig3 : otruthy cfg.right_ignores = false) :
    ∃ m, bestMatch cfg doc query alg mr false 1 flex = Except.ok (some m) ∧
      m.score = 100 ∧ pyLower (spanText m.span) = pyLower (spanText query) := by
  -- the window at j is the query itself
  have hslice : sliceList doc (j : Int) ((j : Int) + (query.length : Int)) = query := by
    unfold sliceList pyIdx
    rw [if_neg (by omega : ¬ ((j : Int) + (query.length : Int)) < 0),
      if_neg (by omega : ¬ (j : Int) < 0)]
    have h1 : ((j : Int) + (query.length : Int)).toNat = j + query.length := by omega
    have h2 : ((j : Int)).toNat = j := by omega
    rw [h1, h2, Nat.min_eq_left hj, Nat.min_eq_left (by omega)]
    rw [← List.take_drop]
    exact hocc
  have hwin : matchScore alg false (spanText query)
      (spanText (sliceList doc (j : Int) ((j : Int) + (query.length : Int)))) = 100 := by
    rw [hslice]
    exact (halg_eq _ _).mpr rfl
  -- the table contains (j, 100)
  have hjmem : (j, 100) ∈ scanDoc doc query alg mr false 1 :=
    (scanDoc_mem doc query alg mr false 1 (by omega) j 100).mpr
      (by
        refine ⟨by push_cast; omega, ?_, by omega⟩
        rw [Nat.mul_one]
        exact hwin.symm)
  have hne : scanDoc doc query alg mr false 1 ≠ [] := by
    intro he
    rw [he] at hjmem
    exact absurd hjmem (List.not_mem_nil _)
  obtain ⟨idx, hidx⟩ := indexMax_isSome _ hne
  obtain ⟨v, hv, hmax⟩ := indexMax_mem _ idx hidx
  have hchar := (scanDoc_mem doc query alg mr false 1 (by omega) idx v).mp hv
  simp only [Nat.mul_one] at hchar
  have hv100 : v = 100 := by
    have hle := matchScore_le alg false (spanText query)
      (spanText (sliceList doc ((idx : Nat) : Int)
        (((idx : Nat) : Int) + query.length))) halg_le
    have hge := hmax (j, 100) hjmem
    omega
  -- baseline lookup
  obtain ⟨v', hv'⟩ := lookupTable_isSome _ idx v hv
  have hchar' := (scanDoc_mem doc query alg mr false 1 (by omega) idx v').mp
    (lookupTable_mem _ idx v' hv')
  simp only [Nat.mul_one] at hchar'
  have hwidx : matchScore alg false (spanText query)
      (spanText (sliceList doc (idx : Int) ((idx : Int) + (query.length : Int)))) = 100 := by
    have := hchar.2.1
    omega
  have hv'100 : lookupTable (scanDoc doc query alg mr false 1) idx = some 100 := by
    rw [hv']
    have := hchar'.2.1
    congr 1
    omega
  -- the adjustment is a no-op and re-scores to 100
  have hadj : adjustLeftRightPositions cfg doc query
      (scanDoc doc query alg mr false 1) alg false (idx * 1) 1
      (calcFlex flex query)
      = Except.ok ((idx : Int), (idx : Int) + (query.length : Int), 100) := by
    rw [Nat.mul_one]
    unfold adjustLeftRightPositions
    rw [Nat.div_one, hv'100]
    dsimp only
    rw [adjustFold_no_improvement doc (spanText query) alg false (idx : Int)
      ((idx : Int) + (query.length : Int)) 100 (calcFlex flex query)
      (by
        intro f hf
        exact ⟨matchScore_le _ _ _ _ halg_le, matchScore_le _ _ _ _ halg_le,
          matchScore_le _ _ _ _ halg_le, matchScore_le _ _ _ _ halg_le⟩)]
    dsimp only
    rw [enforceRules_noIgnores cfg doc _ _ hig1 hig2 hig3]
    dsimp only
    rw [hwidx]
  refine ⟨mkMatch doc ((idx : Int), (idx : Int) + (query.length : Int), 100), ?_, rfl, ?_⟩
  · unfold bestMatch
    dsimp only
    rw [hidx]
    dsimp only
    rw [hadj]
    dsimp only
    rw [if_pos (by omega : mr ≤ 100)]
  · have halg100 : alg (pyLower (spanText query))
        (pyLower (spanText (sliceList doc (idx : Int)
          ((idx : Int) + (query.length : Int))))) = 100 := hwidx
    have heq := (halg_eq _ _).mp halg100
    exact heq.symm

/-- Witness for the amended C2 on a concrete verbatim occurrence. -/
theorem spec_c2_amended_witness :
    ∃ m, bestMatch cfgNone [tok "x", tok "cat"] [tok "cat"] eqAlg 70 false 1 1
        = Except.ok (some m) ∧
      m.score = 100 ∧ pyLower (spanText m.span) = pyLower (spanText [tok "cat"]) :=
  spec_c2_amended cfgNone [tok "x", tok "cat"] [tok "cat"] eqAlg 70 1 1
    eqAlg_le eqAlg_eq_100 (by decide) (by decide) (by decide) rfl rfl rfl rfl

/-- Budget-0 labeling pass over a list of spans: conflicting spans are
dropped with the document unchanged, accepted spans are appended untouched,
and non-overlap of the entity collection is preserved. -/
theorem iterMatches_budget0 (tokens : List Token) (spans : List Ent) :
    ∀ ents : List Ent, List.Pairwise (fun a b => entsOverlap a b = false) ents →
      ∃ added, iterMatches 0 ⟨tokens, ents⟩ spans = ⟨tokens, ents ++ added⟩ ∧
        added.Sublist spans ∧
        List.Pairwise (fun a b => entsOverlap a b = false) (ents ++ added) := by
  induction spans with
  | nil =>
    intro ents h
    exact ⟨[], by simp [iterMatches], List.nil_sublist _, by simpa using h⟩
  | cons s rest ih =>
    intro ents h
    have hstep : iterMatches 0 ⟨tokens, ents⟩ (s :: rest)
        = iterMatches 0 (updateEntities 0 ⟨tokens, ents⟩ s) rest := by
      unfold iterMatches
      rw [List.foldl_cons]
    rw [hstep]
    by_cases hc : ents.any (fun e => entsOverlap e s) = true
    · have hupd : updateEntities 0 ⟨tokens, ents⟩ s = ⟨tokens, ents⟩ := by
        unfold updateEntities entsAdd
        dsimp only
        rw [if_pos hc]
        rfl
      rw [hupd]
      obtain ⟨added, he, hsub, hp⟩ := ih ents h
      exact ⟨added, he, hsub.cons s, hp⟩
    · have hnc : ∀ e ∈ ents, entsOverlap e s = false := by
        intro e he
        rw [List.any_eq_true] at hc
        push_neg at hc
        simpa using hc e he
      have hupd : updateEntities 0 ⟨tokens, ents⟩ s = ⟨tokens, ents ++ [s]⟩ := by
        unfold updateEntities entsAdd
        dsimp only
        rw [if_neg hc]
      rw [hupd]
      have hpair : List.Pairwise (fun a b => entsOverlap a b = false) (ents ++ [s]) := by
        rw [List.pairwise_append]
        refine ⟨h, List.pairwise_singleton _ _, ?_⟩
        intro a ha b hb
        rw [List.mem_singleton] at hb
        rw [hb]
        exact hnc a ha
      obtain ⟨added, he, hsub, hp⟩ := ih (ents ++ [s]) hpair
      refine ⟨s :: added, ?_, hsub.cons₂ s, ?_⟩
      · rw [he, List.append_assoc, List.singleton_append]
      · rw [show ents ++ (s :: added) = (ents ++ [s]) ++ added from by
          rw [List.append_assoc, List.singleton_append]]
        exact hp

/-- C8: in the labeling pass with overlap_adjust = 0, a span whose
registration conflicts with an already registered entity is silently
dropped (no shrinking, no error), the document's tokens and pre-existing
entities are unchanged (the entity list only grows by a subsequence of the
attempted spans, each taken verbatim), and the final entity collection
remains overlap-free. -/
theorem spec_c8_budget0_drop (doc : RDoc) (spans : List Ent)
    (h : List.Pairwise (fun a b => entsOverlap a b = false) doc.ents) :
    ∃ added, (iterMatches 0 doc spans).tokens = doc.tokens ∧
      (iterMatches 0 doc spans).ents = doc.ents ++ added ∧
      added.Sublist spans ∧
      List.Pairwise (fun a b => entsOverlap a b = false)
        (iterMatches 0 doc spans).ents := by
  obtain ⟨toks, ents⟩ := doc
  obtain ⟨added, he, hsub, hp⟩ := iterMatches_budget0 toks spans ents h
  refine ⟨added, by rw [he], by rw [he], hsub, by rw [he]; exact hp⟩

/-- Witness for C8: the claim's concrete scenario, an overlapping span B
dropped and a disjoint span C kept. -/
theorem spec_c8_budget0_drop_witness :
    ∃ added,
      (iterMatches 0 ⟨[tok "a", tok "b", tok "c", tok "d"], [⟨0, 2, "A"⟩]⟩
        [⟨1, 3, "B"⟩, ⟨3, 4, "C"⟩]).tokens = [tok "a", tok "b", tok "c", tok "d"] ∧
      (iterMatches 0 ⟨[tok "a", tok "b", tok "c", tok "d"], [⟨0, 2, "A"⟩]⟩
        [⟨1, 3, "B"⟩, ⟨3, 4, "C"⟩]).ents = [⟨0, 2, "A"⟩] ++ added ∧
      added.Sublist [⟨1, 3, "B"⟩, ⟨3, 4, "C"⟩] ∧
      List.Pairwise (fun a b => entsOverlap a b = false)
        (iterMatches 0 ⟨[tok "a", tok "b", tok "c", tok "d"], [⟨0, 2, "A"⟩]⟩
          [⟨1, 3, "B"⟩, ⟨3, 4, "C"⟩]).ents :=
  spec_c8_budget0_drop ⟨[tok "a", tok "b", tok "c", tok "d"], [⟨0, 2, "A"⟩]⟩
    [⟨1, 3, "B"⟩, ⟨3, 4, "C"⟩] (List.pairwise_singleton _ _)
